import Mathlib

/-!
# Verification of the news-radar pipeline specification

This file gives a shallow embedding of the core pipeline of the repository
(deduplication clustering, adaptive enrichment, incremental feed refresh,
learning-engine weight updates, hotness-score validation, and the SQL
cascade-delete schema) and proves the specification's testable properties
about it.

The repository snapshot contains the documentation (READMEs, improvement
plan, the requirements-compliance document with code excerpts), the SQL
migrations and the frontend TypeScript types, but not the Python modules
themselves (deduplication.py, radar.py, learning engine, feed updater).
Where a definition embeds such a missing module it is modelled from the
specification text and the documented excerpts, and its doc comment says so.
-/

namespace Radar

/-- Article record: `{id, title, content, url, source, published_at}` as in
the data model (spec §3) and the frontend types. Timestamps are modelled as
integers. -/
structure Article where
  id : String
  title : String
  content : String
  url : String
  source : String
  published_at : Int
deriving Repr, DecidableEq, Inhabited

/-! ## Deduplicator: similarity-graph clustering

Modelled from the spec: `deduplication.py` (absent from the snapshot; only
excerpts survive in the compliance document) builds a similarity graph with
an edge between two articles when cosine similarity of their embeddings is
at least the configured threshold (`similarities[idx][j] >=
similarity_threshold`), and takes clusters to be the connected components of
that graph, computed by a DFS over the unvisited neighbours.  The embedding
service and cosine similarity are abstracted as a symmetric rational-valued
similarity function on article indices; the clustering below computes the
connected components of the induced threshold graph by saturating
reachability sets, which is extensionally the DFS of the source. -/

/-- Edge test of the similarity graph: similarity at least threshold. -/
def simEdge (sim : Nat → Nat → ℚ) (threshold : ℚ) (i j : Nat) : Bool :=
  decide (threshold ≤ sim i j)

/-- One saturation step: add every unvisited index of `range n` adjacent to
the current set. -/
def step (adj : Nat → Nat → Bool) (n : Nat) (s : List Nat) : List Nat :=
  s ++ (List.range n).filter (fun j => !(decide (j ∈ s)) && s.any (fun i => adj i j))

/-- All indices reachable from `i` in the similarity graph on `range n`:
`n` saturation steps suffice. -/
def reach (adj : Nat → Nat → Bool) (n : Nat) (i : Nat) : List Nat :=
  (step adj n)^[n] [i]

/-- The clusters of the `n` articles: scan the indices in order and open a
new cluster (the full connected component) for each index not yet placed. -/
def clustersOf (adj : Nat → Nat → Bool) (n : Nat) : List (List Nat) :=
  (List.range n).foldl
    (fun acc i => if acc.any (fun c => decide (i ∈ c)) then acc else acc ++ [reach adj n i]) []

/-- `cluster(articles) -> [Cluster]` at article level: map every index
cluster back to the articles. -/
def cluster (sim : Nat → Nat → ℚ) (threshold : ℚ) (articles : List Article) :
    List (List Article) :=
  (clustersOf (simEdge sim threshold) articles.length).map
    (fun c => c.map (fun i => articles.getD i default))

/-! ### Basic lemmas about `step` and `reach` -/

theorem mem_step {adj : Nat → Nat → Bool} {n : Nat} {s : List Nat} {x : Nat} :
    x ∈ step adj n s ↔ x ∈ s ∨ (x < n ∧ x ∉ s ∧ ∃ i ∈ s, adj i x = true) := by
  simp [step, List.mem_filter, List.mem_range, List.any_eq_true]

theorem subset_step {adj : Nat → Nat → Bool} {n : Nat} {s : List Nat} :
    s ⊆ step adj n s := by
  intro x hx
  exact mem_step.mpr (Or.inl hx)

theorem nodup_step {adj : Nat → Nat → Bool} {n : Nat} {s : List Nat}
    (h : s.Nodup) : (step adj n s).Nodup := by
  refine List.Nodup.append h ((List.nodup_range n).filter _) ?_
  intro x hx hxf
  rcases List.mem_filter.mp hxf with ⟨_, hb⟩
  simp at hb
  exact hb.1 hx

theorem lt_of_mem_step {adj : Nat → Nat → Bool} {n : Nat} {s : List Nat} {x : Nat}
    (hs : ∀ y ∈ s, y < n) (hx : x ∈ step adj n s) : x < n := by
  rcases mem_step.mp hx with h | ⟨h, _, _⟩
  · exact hs x h
  · exact h

theorem step_mono {adj adj' : Nat → Nat → Bool} {n : Nat} {s t : List Nat}
    (hadj : ∀ i j, adj i j = true → adj' i j = true) (hst : s ⊆ t) :
    step adj n s ⊆ step adj' n t := by
  intro x hx
  rcases mem_step.mp hx with h | ⟨hxn, _, i, hi, hix⟩
  · exact subset_step (hst h)
  · by_cases hxt : x ∈ t
    · exact subset_step hxt
    · exact mem_step.mpr (Or.inr ⟨hxn, hxt, i, hst hi, hadj _ _ hix⟩)

theorem iterate_step_mono {adj adj' : Nat → Nat → Bool} {n : Nat}
    (hadj : ∀ i j, adj i j = true → adj' i j = true) :
    ∀ (k : Nat) {s t : List Nat}, s ⊆ t →
      (step adj n)^[k] s ⊆ (step adj' n)^[k] t := by
  intro k
  induction k with
  | zero => intro s t h; simpa using h
  | succ k ih =>
      intro s t h
      rw [Function.iterate_succ_apply, Function.iterate_succ_apply]
      exact ih (step_mono hadj h)

theorem reach_mono {adj adj' : Nat → Nat → Bool} {n : Nat}
    (hadj : ∀ i j, adj i j = true → adj' i j = true) (i : Nat) :
    reach adj n i ⊆ reach adj' n i :=
  iterate_step_mono hadj n (by simp)

theorem nodup_iterate_step {adj : Nat → Nat → Bool} {n : Nat} {s : List Nat}
    (h : s.Nodup) (k : Nat) : ((step adj n)^[k] s).Nodup := by
  induction k with
  | zero => simpa using h
  | succ k ih =>
      rw [Function.iterate_succ_apply']
      exact nodup_step ih

theorem lt_of_mem_iterate_step {adj : Nat → Nat → Bool} {n : Nat} {s : List Nat}
    (hs : ∀ y ∈ s, y < n) (k : Nat) :
    ∀ x ∈ (step adj n)^[k] s, x < n := by
  induction k with
  | zero => simpa using hs
  | succ k ih =>
      rw [Function.iterate_succ_apply']
      intro x hx
      exact lt_of_mem_step ih hx

theorem nodup_reach {adj : Nat → Nat → Bool} {n : Nat} (i : Nat) :
    (reach adj n i).Nodup :=
  nodup_iterate_step (by simp) n

theorem lt_of_mem_reach {adj : Nat → Nat → Bool} {n i : Nat} (hi : i < n) :
    ∀ x ∈ reach adj n i, x < n :=
  lt_of_mem_iterate_step (by simpa using hi) n

theorem subset_iterate_step {adj : Nat → Nat → Bool} {n : Nat} (s : List Nat)
    (k : Nat) : s ⊆ (step adj n)^[k] s := by
  induction k with
  | zero => simp
  | succ k ih =>
      rw [Function.iterate_succ_apply']
      exact fun x hx => subset_step (ih hx)

theorem self_mem_reach {adj : Nat → Nat → Bool} {n : Nat} (i : Nat) :
    i ∈ reach adj n i :=
  subset_iterate_step [i] n (by simp)

/-- A set fixed by `step` stays fixed under iteration. -/
theorem iterate_of_fixed {adj : Nat → Nat → Bool} {n : Nat} {s : List Nat}
    (h : step adj n s = s) (k : Nat) : (step adj n)^[k] s = s := by
  induction k with
  | zero => rfl
  | succ k ih => rw [Function.iterate_succ_apply', ih, h]

theorem length_lt_of_step_ne {adj : Nat → Nat → Bool} {n : Nat} {s : List Nat}
    (h : step adj n s ≠ s) : s.length < (step adj n s).length := by
  unfold step at h ⊢
  rcases hf : (List.range n).filter
      (fun j => !(decide (j ∈ s)) && s.any (fun i => adj i j)) with _ | ⟨a, l⟩
  · exact absurd (by simp [hf]) h
  · simp [hf]

/-- Saturation: after `n` steps starting from a singleton below `n`, the
reachable set is a fixed point of `step`. -/
theorem step_reach_fixed {adj : Nat → Nat → Bool} {n i : Nat} (hi : i < n) :
    step adj n (reach adj n i) = reach adj n i := by
  by_contra hne
  -- if no iterate up to n is fixed, lengths grow beyond the Nodup bound
  have hnotfix : ∀ k ≤ n, step adj n ((step adj n)^[k] [i]) ≠ (step adj n)^[k] [i] := by
    intro k hk hfix
    have : (step adj n)^[n] [i] = (step adj n)^[k] [i] := by
      have hnk : n = k + (n - k) := by omega
      calc (step adj n)^[n] [i] = (step adj n)^[n - k] ((step adj n)^[k] [i]) := by
            rw [← Function.iterate_add_apply]
            congr 1
            omega
        _ = (step adj n)^[k] [i] := iterate_of_fixed hfix _
    exact hne (by rw [reach, this]; exact hfix)
  have hgrow : ∀ k ≤ n + 1, k ≤ ((step adj n)^[k] [i]).length := by
    intro k hk
    induction k with
    | zero => simp
    | succ k ih =>
        have h1 : k ≤ ((step adj n)^[k] [i]).length := ih (by omega)
        have h2 : ((step adj n)^[k] [i]).length < ((step adj n)^[k + 1] [i]).length := by
          rw [Function.iterate_succ_apply']
          exact length_lt_of_step_ne (hnotfix k (by omega))
        omega
  have hlen : ((step adj n)^[n + 1] [i]).length ≤ n := by
    have hnd : ((step adj n)^[n + 1] [i]).Nodup := nodup_iterate_step (by simp) _
    have hsub : (step adj n)^[n + 1] [i] ⊆ List.range n := by
      intro x hx
      exact List.mem_range.mpr (lt_of_mem_iterate_step (by simpa using hi) _ x hx)
    simpa using (hnd.subperm hsub).length_le
  have := hgrow (n + 1) le_rfl
  omega

/-! ### Reachability as an inductive relation -/

/-- Graph reachability from `i` along above-threshold edges whose targets
lie below `n`. -/
inductive Reaches (adj : Nat → Nat → Bool) (n i : Nat) : Nat → Prop
  | base : Reaches adj n i i
  | next {a b : Nat} : Reaches adj n i a → b < n → adj a b = true → Reaches adj n i b

theorem Reaches.lt_or_eq {adj : Nat → Nat → Bool} {n i j : Nat}
    (h : Reaches adj n i j) : j = i ∨ j < n := by
  induction h with
  | base => exact Or.inl rfl
  | next _ hb _ _ => exact Or.inr hb

theorem reaches_of_mem_iterate {adj : Nat → Nat → Bool} {n i : Nat} :
    ∀ (k : Nat) {x : Nat}, x ∈ (step adj n)^[k] [i] → Reaches adj n i x := by
  intro k
  induction k with
  | zero =>
      intro x hx
      simp at hx
      subst hx
      exact Reaches.base
  | succ k ih =>
      intro x hx
      rw [Function.iterate_succ_apply'] at hx
      rcases mem_step.mp hx with h | ⟨hxn, _, a, ha, hax⟩
      · exact ih h
      · exact Reaches.next (ih ha) hxn hax

theorem reaches_of_mem_reach {adj : Nat → Nat → Bool} {n i x : Nat}
    (hx : x ∈ reach adj n i) : Reaches adj n i x :=
  reaches_of_mem_iterate n hx

theorem mem_reach_of_reaches {adj : Nat → Nat → Bool} {n i : Nat} (hi : i < n)
    {x : Nat} (h : Reaches adj n i x) : x ∈ reach adj n i := by
  induction h with
  | base => exact self_mem_reach i
  | next ha hb hab ih =>
      rename_i a b
      by_cases hx : b ∈ reach adj n i
      · exact hx
      · have : b ∈ step adj n (reach adj n i) :=
          mem_step.mpr (Or.inr ⟨hb, hx, a, ih, hab⟩)
        rwa [step_reach_fixed hi] at this

theorem mem_reach_iff {adj : Nat → Nat → Bool} {n i : Nat} (hi : i < n) {x : Nat} :
    x ∈ reach adj n i ↔ Reaches adj n i x :=
  ⟨reaches_of_mem_reach, mem_reach_of_reaches hi⟩

theorem Reaches.trans {adj : Nat → Nat → Bool} {n i j k : Nat}
    (hij : Reaches adj n i j) (hjk : Reaches adj n j k) : Reaches adj n i k := by
  induction hjk with
  | base => exact hij
  | next _ hb hab ih => exact Reaches.next ih hb hab

theorem Reaches.symm {adj : Nat → Nat → Bool}
    (hsym : ∀ a b, adj a b = adj b a) {n i j : Nat} (hi : i < n)
    (h : Reaches adj n i j) : Reaches adj n j i := by
  induction h with
  | base => exact Reaches.base
  | next ha hb hab ih =>
      rename_i a b
      have haln : a < n := by
        rcases ha.lt_or_eq with rfl | h
        · exact hi
        · exact h
      have hba : Reaches adj n b a :=
        Reaches.next Reaches.base haln (by rw [hsym]; exact hab)
      exact hba.trans ih

/-- Components coincide: if `j` is reachable from `i`, the two reachable
sets are equal as sets (the graph is undirected). -/
theorem reach_eq_of_mem {adj : Nat → Nat → Bool}
    (hsym : ∀ a b, adj a b = adj b a) {n i j : Nat} (hi : i < n) (hj : j < n)
    (hmem : j ∈ reach adj n i) : ∀ x, x ∈ reach adj n j ↔ x ∈ reach adj n i := by
  intro x
  have hij : Reaches adj n i j := reaches_of_mem_reach hmem
  have hji : Reaches adj n j i := hij.symm hsym hi
  constructor
  · intro hx
    exact mem_reach_of_reaches hi (hij.trans (reaches_of_mem_reach hx))
  · intro hx
    exact mem_reach_of_reaches hj (hji.trans (reaches_of_mem_reach hx))

/-! ### `clustersOf` is a partition of the index set -/

/-- The accumulator update of `clustersOf`. -/
def updAcc (adj : Nat → Nat → Bool) (n : Nat) (acc : List (List Nat)) (i : Nat) :
    List (List Nat) :=
  if acc.any (fun c => decide (i ∈ c)) then acc else acc ++ [reach adj n i]

theorem clustersOf_eq_foldl (adj : Nat → Nat → Bool) (n : Nat) :
    clustersOf adj n = (List.range n).foldl (updAcc adj n) [] := rfl

theorem subset_updAcc {adj : Nat → Nat → Bool} {n : Nat} (acc : List (List Nat))
    (i : Nat) : acc ⊆ updAcc adj n acc i := by
  unfold updAcc
  split
  · exact fun c h => h
  · exact fun c h => List.mem_append_left _ h

/-- Invariant of the scan: every accumulated cluster is the reachable set of
some index below `n`, and the accumulated clusters are pairwise disjoint. -/
def ClustersInv (adj : Nat → Nat → Bool) (n : Nat) (acc : List (List Nat)) : Prop :=
  (∀ c ∈ acc, ∃ g, g < n ∧ c = reach adj n g) ∧
    acc.Pairwise (fun c d => ∀ x, x ∈ c → x ∉ d)

theorem clustersInv_updAcc {adj : Nat → Nat → Bool}
    (hsym : ∀ a b, adj a b = adj b a) {n : Nat} {acc : List (List Nat)} {i : Nat}
    (hi : i < n) (h : ClustersInv adj n acc) :
    ClustersInv adj n (updAcc adj n acc i) := by
  unfold updAcc
  split
  · exact h
  · rename_i hguard
    have hno : ∀ c ∈ acc, i ∉ c := by
      intro c hc hic
      exact hguard (List.any_eq_true.mpr ⟨c, hc, by simpa using hic⟩)
    constructor
    · intro c hc
      rcases List.mem_append.mp hc with hc | hc
      · exact h.1 c hc
      · exact ⟨i, hi, by simpa using hc⟩
    · rw [List.pairwise_append]
      refine ⟨h.2, by simp, ?_⟩
      intro c hc d hd x hxc hxd
      rcases h.1 c hc with ⟨g, hg, rfl⟩
      have hd' : d = reach adj n i := by simpa using hd
      subst hd'
      have hxn : x < n := lt_of_mem_reach hg x hxc
      have hgx : Reaches adj n g x := reaches_of_mem_reach hxc
      have hix : Reaches adj n i x := reaches_of_mem_reach hxd
      have hxi : Reaches adj n x i := hix.symm hsym hi
      have : i ∈ reach adj n g := mem_reach_of_reaches hg (hgx.trans hxi)
      exact hno _ hc this

theorem clustersInv_foldl {adj : Nat → Nat → Bool}
    (hsym : ∀ a b, adj a b = adj b a) {n : Nat} :
    ∀ (l : List Nat) (acc : List (List Nat)), (∀ i ∈ l, i < n) →
      ClustersInv adj n acc → ClustersInv adj n (l.foldl (updAcc adj n) acc) := by
  intro l
  induction l with
  | nil => intro acc _ h; exact h
  | cons i l ih =>
      intro acc hl h
      exact ih _ (fun j hj => hl j (List.mem_cons_of_mem _ hj))
        (clustersInv_updAcc hsym (hl i (List.mem_cons_self _ _)) h)

theorem clustersOf_inv {adj : Nat → Nat → Bool}
    (hsym : ∀ a b, adj a b = adj b a) (n : Nat) :
    ClustersInv adj n (clustersOf adj n) := by
  rw [clustersOf_eq_foldl]
  exact clustersInv_foldl hsym _ [] (by simp) ⟨by simp, by simp⟩

theorem cover_foldl {adj : Nat → Nat → Bool} {n : Nat} :
    ∀ (l : List Nat) (acc : List (List Nat)) (k : Nat),
      ((∃ c ∈ acc, k ∈ c) ∨ k ∈ l) →
      ∃ c ∈ l.foldl (updAcc adj n) acc, k ∈ c := by
  intro l
  induction l with
  | nil =>
      intro acc k h
      rcases h with h | h
      · exact h
      · simp at h
  | cons i l ih =>
      intro acc k h
      rw [List.foldl_cons]
      apply ih
      rcases h with ⟨c, hc, hkc⟩ | h
      · exact Or.inl ⟨c, subset_updAcc acc i hc, hkc⟩
      · rcases List.mem_cons.mp h with rfl | hkl
        · unfold updAcc
          split
          · rename_i hguard
            rcases List.any_eq_true.mp hguard with ⟨c, hc, hkc⟩
            exact Or.inl ⟨c, hc, by simpa using hkc⟩
          · exact Or.inl ⟨reach adj n k, by simp, self_mem_reach k⟩
        · exact Or.inr hkl

theorem clustersOf_cover {adj : Nat → Nat → Bool} {n k : Nat} (hk : k < n) :
    ∃ c ∈ clustersOf adj n, k ∈ c := by
  rw [clustersOf_eq_foldl]
  exact cover_foldl _ [] k (Or.inr (List.mem_range.mpr hk))

/-- Each cluster is closed under above-threshold edges. -/
theorem clustersOf_closed {adj : Nat → Nat → Bool}
    (hsym : ∀ a b, adj a b = adj b a) {n : Nat} {c : List Nat}
    (hc : c ∈ clustersOf adj n) {x y : Nat} (hx : x ∈ c) (hy : y < n)
    (hxy : adj x y = true) : y ∈ c := by
  rcases (clustersOf_inv hsym n).1 c hc with ⟨g, hg, rfl⟩
  exact mem_reach_of_reaches hg ((reaches_of_mem_reach hx).next hy hxy)

theorem clustersOf_nonempty {adj : Nat → Nat → Bool}
    (hsym : ∀ a b, adj a b = adj b a) {n : Nat} {c : List Nat}
    (hc : c ∈ clustersOf adj n) : c ≠ [] := by
  rcases (clustersOf_inv hsym n).1 c hc with ⟨g, _, rfl⟩
  exact List.ne_nil_of_mem (self_mem_reach g)

theorem clustersOf_nodup {adj : Nat → Nat → Bool}
    (hsym : ∀ a b, adj a b = adj b a) {n : Nat} {c : List Nat}
    (hc : c ∈ clustersOf adj n) : c.Nodup := by
  rcases (clustersOf_inv hsym n).1 c hc with ⟨g, _, rfl⟩
  exact nodup_reach g

theorem clustersOf_lt {adj : Nat → Nat → Bool}
    (hsym : ∀ a b, adj a b = adj b a) {n : Nat} {c : List Nat}
    (hc : c ∈ clustersOf adj n) : ∀ x ∈ c, x < n := by
  rcases (clustersOf_inv hsym n).1 c hc with ⟨g, hg, rfl⟩
  exact lt_of_mem_reach hg

/-- Two clusters sharing an index are the same cluster. -/
theorem clustersOf_unique {adj : Nat → Nat → Bool}
    (hsym : ∀ a b, adj a b = adj b a) {n : Nat} {c d : List Nat}
    (hc : c ∈ clustersOf adj n) (hd : d ∈ clustersOf adj n) {k : Nat}
    (hkc : k ∈ c) (hkd : k ∈ d) : c = d := by
  by_contra hne
  have hdisj := (clustersOf_inv hsym n).2
  have hR : ∀ x, x ∈ c → x ∉ d := by
    have hsymR : Symmetric (fun c d : List Nat => ∀ x, x ∈ c → x ∉ d) := by
      intro u v huv x hxv hxu
      exact huv x hxu hxv
    exact List.Pairwise.forall hsymR hdisj hc hd hne
  exact hR k hkc hkd

/-- Coarsening: with more edges, every cluster is contained in a cluster of
the richer graph. -/
theorem clustersOf_mono {adj adj' : Nat → Nat → Bool}
    (hsym : ∀ a b, adj a b = adj b a) (hsym' : ∀ a b, adj' a b = adj' b a)
    (hadj : ∀ i j, adj i j = true → adj' i j = true) {n : Nat} {c : List Nat}
    (hc : c ∈ clustersOf adj n) : ∃ c' ∈ clustersOf adj' n, c ⊆ c' := by
  rcases (clustersOf_inv hsym n).1 c hc with ⟨g, hg, rfl⟩
  rcases @clustersOf_cover adj' n g hg with ⟨c', hc', hgc'⟩
  refine ⟨c', hc', ?_⟩
  rcases (clustersOf_inv hsym' n).1 c' hc' with ⟨g', hg', rfl⟩
  intro x hx
  have hx' : x ∈ reach adj' n g := reach_mono hadj g hx
  exact (reach_eq_of_mem hsym' hg' hg hgc' x).mp hx'

/-- The article put at index `i` of the run (indices are always in range
when produced by the clustering). -/
def toArt (articles : List Article) (i : Nat) : Article :=
  articles.getD i default

theorem id_inj_of_nodup {articles : List Article}
    (hids : (articles.map Article.id).Nodup) {i j : Nat}
    (hi : i < articles.length) (hj : j < articles.length)
    (h : (toArt articles i).id = (toArt articles j).id) : i = j := by
  have hi' : i < (articles.map Article.id).length := by simpa using hi
  have hj' : j < (articles.map Article.id).length := by simpa using hj
  have h' : (articles.map Article.id)[i] = (articles.map Article.id)[j] := by
    simpa [toArt, List.getD_eq_getElem, hi, hj] using h
  exact (List.Nodup.getElem_inj_iff hids).mp h'

/-- C1: the Deduplicator's clusters form a partition of the input — every
input article id is a member of exactly one output cluster, and every
output cluster has at least one member.  (Modelled from the spec: the
clustering of `deduplication.py` is absent from the snapshot; the embedding
follows spec §4.1 and the documented `similarities[idx][j] >=
similarity_threshold` connected-component construction.) -/
theorem cluster_is_partition (sim : Nat → Nat → ℚ) (t : ℚ) (articles : List Article)
    (hsym : ∀ i j, sim i j = sim j i)
    (hids : (articles.map Article.id).Nodup) :
    (∀ c ∈ cluster sim t articles, c ≠ []) ∧
    (∀ a ∈ articles, ∃! c, c ∈ cluster sim t articles ∧ a.id ∈ c.map Article.id) := by
  set n := articles.length with hn
  have hsymadj : ∀ a b, simEdge sim t a b = simEdge sim t b a := by
    intro a b
    unfold simEdge
    rw [hsym]
  constructor
  · intro c hc
    rcases List.mem_map.mp hc with ⟨ci, hci, rfl⟩
    have := clustersOf_nonempty hsymadj hci
    simpa using this
  · intro a ha
    rcases List.mem_iff_getElem.mp ha with ⟨k, hk, hak⟩
    rcases @clustersOf_cover (simEdge sim t) n k hk with ⟨ci, hci, hkci⟩
    have hmemk : a ∈ ci.map (toArt articles) := by
      refine List.mem_map.mpr ⟨k, hkci, ?_⟩
      simp [toArt, List.getD_eq_getElem, hk, hak]
    refine ⟨ci.map (toArt articles), ⟨List.mem_map_of_mem _ hci, ?_⟩, ?_⟩
    · exact List.mem_map_of_mem _ hmemk
    · rintro c' ⟨hc', hidc'⟩
      rcases List.mem_map.mp hc' with ⟨ci', hci', rfl⟩
      rcases List.mem_map.mp hidc' with ⟨a', ha', hida⟩
      rcases List.mem_map.mp ha' with ⟨j, hjci', rfl⟩
      have hj : j < n := clustersOf_lt hsymadj hci' j hjci'
      have hk' : (toArt articles k) = a := by
        simp [toArt, List.getD_eq_getElem, hk, hak]
      have hjk : j = k := by
        apply id_inj_of_nodup hids hj hk
        rw [hk']
        exact hida
      subst hjk
      have : ci' = ci := clustersOf_unique hsymadj hci' hci hjci' hkci
      rw [this]
      rfl

/-- C2: if two articles' similarity is at least the threshold, they land in
the same cluster (clusters are connected components of the threshold
graph), and lowering the threshold never decreases the size of any cluster.
(Modelled from the spec: `deduplication.py` is absent from the snapshot;
embedding per spec §4.1, §8.) -/
theorem cluster_similarity_monotone (sim : Nat → Nat → ℚ) (t t' : ℚ)
    (articles : List Article) (hsym : ∀ i j, sim i j = sim j i) :
    (∀ i j, i < articles.length → j < articles.length → t ≤ sim i j →
      ∃ c ∈ cluster sim t articles,
        toArt articles i ∈ c ∧ toArt articles j ∈ c) ∧
    (t' ≤ t → ∀ c ∈ cluster sim t articles,
      ∃ c' ∈ cluster sim t' articles, c.length ≤ c'.length) := by
  have hsymadj : ∀ u, ∀ a b, simEdge sim u a b = simEdge sim u b a := by
    intro u a b
    unfold simEdge
    rw [hsym]
  constructor
  · intro i j hi hj hsimt
    rcases @clustersOf_cover (simEdge sim t) articles.length i hi with ⟨ci, hci, hici⟩
    have hjci : j ∈ ci :=
      clustersOf_closed (hsymadj t) hci hici hj (by simpa [simEdge] using hsimt)
    exact ⟨ci.map (toArt articles), List.mem_map_of_mem _ hci,
      List.mem_map_of_mem _ hici, List.mem_map_of_mem _ hjci⟩
  · intro htt c hc
    rcases List.mem_map.mp hc with ⟨ci, hci, rfl⟩
    have hadj : ∀ i j, simEdge sim t i j = true → simEdge sim t' i j = true := by
      intro i j h
      simp only [simEdge, decide_eq_true_eq] at h ⊢
      exact le_trans htt h
    rcases clustersOf_mono (hsymadj t) (hsymadj t') hadj hci with ⟨ci', hci', hsub⟩
    refine ⟨ci'.map (toArt articles), List.mem_map_of_mem _ hci', ?_⟩
    have hnd : ci.Nodup := clustersOf_nodup (hsymadj t) hci
    have := (hnd.subperm hsub).length_le
    simpa using this

/-- A small symmetric similarity function used to instantiate the clustering
theorems on a concrete run: indices 0 and 1 are similar (0.9), everything
else only to itself. -/
def simW (i j : Nat) : ℚ :=
  if min i j = 0 ∧ max i j = 1 then 9 / 10
  else if min i j = max i j then 1 else 0

theorem simW_symm : ∀ i j, simW i j = simW j i := by
  intro i j
  unfold simW
  rw [Nat.min_comm, Nat.max_comm]

/-- A concrete three-article input. -/
def wArticles : List Article :=
  [⟨"a1", "t1", "c1", "u1", "s1", 0⟩,
   ⟨"a2", "t2", "c2", "u2", "s2", 1⟩,
   ⟨"a3", "t3", "c3", "u3", "s3", 2⟩]

/-- Witness for C1 on a concrete run. -/
theorem cluster_is_partition_witness :
    (∀ c ∈ cluster simW (85 / 100) wArticles, c ≠ []) ∧
    (∀ a ∈ wArticles, ∃! c, c ∈ cluster simW (85 / 100) wArticles ∧
      a.id ∈ c.map Article.id) :=
  cluster_is_partition simW (85 / 100) wArticles simW_symm (by decide)

/-- Witness for C2 on a concrete run. -/
theorem cluster_similarity_monotone_witness :
    (∀ i j, i < wArticles.length → j < wArticles.length → 85 / 100 ≤ simW i j →
      ∃ c ∈ cluster simW (85 / 100) wArticles,
        toArt wArticles i ∈ c ∧ toArt wArticles j ∈ c) ∧
    ((1 : ℚ) / 2 ≤ 85 / 100 → ∀ c ∈ cluster simW (85 / 100) wArticles,
      ∃ c' ∈ cluster simW (1 / 2) wArticles, c.length ≤ c'.length) :=
  cluster_similarity_monotone simW (85 / 100) (1 / 2) wArticles simW_symm

/-! ## Adaptive Enrichment Selector -/

/-- Entity record as in the frontend types and the data model (spec §3). -/
structure Entity where
  name : String
  type : String
  relevance : ℚ
  ticker : Option String
deriving Repr, DecidableEq, Inhabited

/-- The inputs the selector sees for one scored story (spec §4.3). -/
structure StoryInputs where
  headline : String
  why_now : String
  entities : List Entity
  sources : List String
  overall : ℚ
deriving Repr, DecidableEq, Inhabited

/-- The story the selector emits: basic fields always, an optional draft,
and the `research_enriched` flag (`has_deep_research` in the frontend
types). -/
structure EnrichedStory where
  headline : String
  why_now : String
  entities : List Entity
  sources : List String
  draft : Option String
  research_enriched : Bool
deriving Repr, DecidableEq, Inhabited

/-- Result of the deep-research capability: a long-form report and an
extended source list. -/
structure ResearchResult where
  report : String
  extra_sources : List String
deriving Repr, DecidableEq, Inhabited

/-- Merge the extended sources into the story's source list, deduplicated
by URL (spec §4.3 step (c)). -/
def mergeByUrl (orig extra : List String) : List String :=
  extra.foldl (fun acc u => if u ∈ acc then acc else acc ++ [u]) orig

/-- The clearly delimited research section appended to the draft
(deep_researcher.py excerpt in the compliance document). -/
def researchSection (report : String) : String :=
  "\n\n---\n\n## Deep Research Analysis\n\n" ++ report

/-- Modelled from the spec: the Adaptive Enrichment Selector of spec §4.3
and the adaptive-strategy branching of the backend README
(`Hotness < 0.7 -> Simple Summary`, `Hotness >= 0.7 -> Full Draft + Deep
Research`); the Python modules radar.py / draft_generator.py /
deep_researcher.py are absent from the snapshot.  Below the threshold the
story keeps only the basic fields (no draft, not enriched).  At or above
it, a full draft is generated and deep research attempted: on success the
report is appended to the draft, the extended sources are merged
(deduplicated by URL) and `research_enriched` is set; on failure the
un-enriched full draft is returned with `research_enriched = false`. -/
def select (threshold : ℚ) (fullDraft : String) (research : Option ResearchResult)
    (s : StoryInputs) : EnrichedStory :=
  if s.overall < threshold then
    { headline := s.headline, why_now := s.why_now, entities := s.entities,
      sources := s.sources, draft := none, research_enriched := false }
  else
    match research with
    | some r =>
        { headline := s.headline, why_now := s.why_now, entities := s.entities,
          sources := mergeByUrl s.sources r.extra_sources,
          draft := some (fullDraft ++ researchSection r.report),
          research_enriched := true }
    | none =>
        { headline := s.headline, why_now := s.why_now, entities := s.entities,
          sources := s.sources, draft := some fullDraft,
          research_enriched := false }

/-- C3: below the escalation threshold a story gets only the basic fields,
no draft and `research_enriched = false`; a story at `threshold − ε`
(`ε > 0`) never carries `research_enriched = true`; a story exactly at the
threshold is escalated to a full draft.  (Modelled from the spec, §4.3 and
§8.) -/
theorem select_escalation_boundary (threshold : ℚ) (fullDraft : String)
    (research : Option ResearchResult) (s : StoryInputs) :
    (s.overall < threshold →
      select threshold fullDraft research s =
        { headline := s.headline, why_now := s.why_now, entities := s.entities,
          sources := s.sources, draft := none, research_enriched := false }) ∧
    (∀ ε : ℚ, 0 < ε → s.overall = threshold - ε →
      (select threshold fullDraft research s).research_enriched = false) ∧
    (s.overall = threshold →
      (select threshold fullDraft research s).draft.isSome = true) := by
  refine ⟨?_, ?_, ?_⟩
  · intro h
    simp [select, h]
  · intro ε hε hov
    have h : s.overall < threshold := by
      rw [hov]
      linarith
    simp [select, h]
  · intro h
    have h' : ¬ s.overall < threshold := by
      rw [h]
      exact lt_irrefl _
    simp only [select, if_neg h']
    cases research <;> simp

/-- Witness for C3 at concrete inputs. -/
theorem select_escalation_boundary_witness :
    (((6 : ℚ) / 10 < 7 / 10 →
      select (7 / 10) "d" none ⟨"h", "w", [], ["u"], 6 / 10⟩ =
        { headline := "h", why_now := "w", entities := [], sources := ["u"],
          draft := none, research_enriched := false }) ∧
    (∀ ε : ℚ, 0 < ε → (6 : ℚ) / 10 = 7 / 10 - ε →
      (select (7 / 10) "d" none ⟨"h", "w", [], ["u"], 6 / 10⟩).research_enriched
        = false) ∧
    ((6 : ℚ) / 10 = 7 / 10 →
      (select (7 / 10) "d" none ⟨"h", "w", [], ["u"], 6 / 10⟩).draft.isSome
        = true)) ∧
    ((7 : ℚ) / 10 = 7 / 10 →
      (select (7 / 10) "d" none ⟨"h", "w", [], ["u"], 7 / 10⟩).draft.isSome
        = true) :=
  ⟨select_escalation_boundary (7 / 10) "d" none ⟨"h", "w", [], ["u"], 6 / 10⟩,
   (select_escalation_boundary (7 / 10) "d" none ⟨"h", "w", [], ["u"], 7 / 10⟩).2.2⟩

/-- C4: for an escalated story, `research_enriched` is true exactly when
the deep-research step succeeded; on success the report is appended to the
draft and the extended sources are merged (deduplicated by URL); on failure
the story is still returned, with the un-enriched full draft and
`research_enriched = false`.  (Modelled from the spec, §4.3 and §7
`ResearchError`.) -/
theorem select_research_fallback (threshold : ℚ) (fullDraft : String)
    (s : StoryInputs) (hesc : threshold ≤ s.overall) :
    (∀ research : Option ResearchResult,
      (select threshold fullDraft research s).research_enriched = true ↔
        research.isSome = true) ∧
    (∀ r : ResearchResult,
      (select threshold fullDraft (some r) s).draft =
          some (fullDraft ++ researchSection r.report) ∧
      (select threshold fullDraft (some r) s).sources =
          mergeByUrl s.sources r.extra_sources) ∧
    ((select threshold fullDraft none s).draft = some fullDraft ∧
      (select threshold fullDraft none s).research_enriched = false ∧
      (select threshold fullDraft none s).headline = s.headline) := by
  have h' : ¬ s.overall < threshold := not_lt.mpr hesc
  refine ⟨?_, ?_, ?_⟩
  · intro research
    cases research <;> simp [select, h']
  · intro r
    simp [select, h']
  · simp [select, h']

/-- Witness for C4 at concrete inputs. -/
theorem select_research_fallback_witness :
    (∀ research : Option ResearchResult,
      (select (7 / 10) "d" research ⟨"h", "w", [], ["u"], 8 / 10⟩).research_enriched
          = true ↔ research.isSome = true) ∧
    (∀ r : ResearchResult,
      (select (7 / 10) "d" (some r) ⟨"h", "w", [], ["u"], 8 / 10⟩).draft =
          some ("d" ++ researchSection r.report) ∧
      (select (7 / 10) "d" (some r) ⟨"h", "w", [], ["u"], 8 / 10⟩).sources =
          mergeByUrl ["u"] r.extra_sources) ∧
    ((select (7 / 10) "d" none ⟨"h", "w", [], ["u"], 8 / 10⟩).draft = some "d" ∧
      (select (7 / 10) "d" none ⟨"h", "w", [], ["u"], 8 / 10⟩).research_enriched
          = false ∧
      (select (7 / 10) "d" none ⟨"h", "w", [], ["u"], 8 / 10⟩).headline = "h") :=
  select_research_fallback (7 / 10) "d" ⟨"h", "w", [], ["u"], 8 / 10⟩ (by norm_num)

/-! ## Incremental Updater & feed merge -/

/-- A persisted feed item for one user, as in the `feed_items` table and
the frontend `FeedItem` type (status flags and timestamps are irrelevant to
the merge and omitted). -/
structure FeedItem where
  article_id : String
  title : String
  summary : String
  url : String
  source : String
  published_at : Int
deriving Repr, DecidableEq, Inhabited

/-- The per-user state of the incremental updater: the persisted feed and
the timestamp of the most recently processed article (spec §4.4). -/
structure UpdState where
  feed : List FeedItem
  lastSeen : Int
deriving Repr, DecidableEq, Inhabited

/-- Modelled from the spec: the merge of spec §4.4 — stories are merged
into the user's persisted feed by `article_id`, skipping any article id
already present; returns the new feed and the count of newly added items. -/
def mergeFeed (feed : List FeedItem) (stories : List FeedItem) :
    List FeedItem × Nat :=
  stories.foldl
    (fun acc it =>
      if acc.1.any (fun e => decide (e.article_id = it.article_id)) then acc
      else (acc.1 ++ [it], acc.2 + 1))
    (feed, 0)

/-- Modelled from the spec: `refresh(user)` of spec §4.4 — fetch only the
articles published strictly after `last_seen_published_at`, run them
through the pipeline (abstracted as `process`), merge the resulting items
by `article_id`, and advance `last_seen_published_at` to the maximum
published timestamp observed. -/
def refresh (process : List Article → List FeedItem)
    (allArticles : List Article) (st : UpdState) : Nat × UpdState :=
  let fetched := allArticles.filter (fun a => decide (st.lastSeen < a.published_at))
  let merged := mergeFeed st.feed (process fetched)
  let last' := fetched.foldl (fun m a => max m a.published_at) st.lastSeen
  (merged.2, ⟨merged.1, last'⟩)

/-- A sequence of refreshes, one article batch per call. -/
def runRefreshes (process : List Article → List FeedItem)
    (batches : List (List Article)) (st : UpdState) : UpdState :=
  batches.foldl (fun s b => (refresh process b s).2) st

theorem le_foldl_max (l : List Article) (init : Int) :
    init ≤ l.foldl (fun m a => max m a.published_at) init := by
  induction l generalizing init with
  | nil => simp
  | cons a l ih => exact le_trans (le_max_left _ _) (ih _)

theorem mem_le_foldl_max {l : List Article} {a : Article} (ha : a ∈ l)
    (init : Int) :
    a.published_at ≤ l.foldl (fun m a => max m a.published_at) init := by
  induction l generalizing init with
  | nil => simp at ha
  | cons b l ih =>
      rcases List.mem_cons.mp ha with rfl | ha'
      · exact le_trans (le_max_right _ _) (le_foldl_max _ _)
      · exact ih ha' _

/-- Merging a batch whose article ids are all already present adds nothing
and leaves the feed unchanged. -/
theorem mergeFeed_all_present {feed stories : List FeedItem}
    (h : ∀ it ∈ stories, ∃ e ∈ feed, e.article_id = it.article_id) :
    mergeFeed feed stories = (feed, 0) := by
  unfold mergeFeed
  have key : ∀ (l : List FeedItem) (acc : List FeedItem × Nat),
      (∀ it ∈ l, ∃ e ∈ acc.1, e.article_id = it.article_id) →
      l.foldl
        (fun acc it =>
          if acc.1.any (fun e => decide (e.article_id = it.article_id)) then acc
          else (acc.1 ++ [it], acc.2 + 1)) acc = acc := by
    intro l
    induction l with
    | nil => intro acc _; rfl
    | cons it l ih =>
        intro acc hacc
        rcases hacc it (List.mem_cons_self _ _) with ⟨e, he, heq⟩
        have hany : acc.1.any (fun e => decide (e.article_id = it.article_id)) = true :=
          List.any_eq_true.mpr ⟨e, he, by simpa using heq⟩
        rw [List.foldl_cons, if_pos hany]
        exact ih acc (fun j hj => hacc j (List.mem_cons_of_mem _ hj))
  exact key stories (feed, 0) h

/-- C5: refresh is idempotent — running `refresh` a second time with no new
articles published in between yields `new_items = 0` and leaves the
persisted feed (indeed the whole updater state) unchanged; and the merge
skips every article id already present.  (Modelled from the spec, §4.4 and
§8; the Python feed updater is absent from the snapshot.) -/
theorem refresh_idempotent (process : List Article → List FeedItem)
    (allArticles : List Article) (st : UpdState)
    (hproc : process [] = []) :
    (refresh process allArticles (refresh process allArticles st).2).1 = 0 ∧
    (refresh process allArticles (refresh process allArticles st).2).2 =
      (refresh process allArticles st).2 ∧
    (∀ feed stories : List FeedItem,
      (∀ it ∈ stories, ∃ e ∈ feed, e.article_id = it.article_id) →
      mergeFeed feed stories = (feed, 0)) := by
  set st₁ := (refresh process allArticles st).2 with hst₁
  have hlast : st₁.lastSeen =
      (allArticles.filter (fun a => decide (st.lastSeen < a.published_at))).foldl
        (fun m a => max m a.published_at) st.lastSeen := by
    rw [hst₁]
    rfl
  have hfetch : allArticles.filter (fun a => decide (st₁.lastSeen < a.published_at)) = [] := by
    rw [List.filter_eq_nil_iff]
    intro a ha
    simp only [decide_eq_true_eq, not_lt]
    by_cases hnew : st.lastSeen < a.published_at
    · have hmem : a ∈ allArticles.filter (fun a => decide (st.lastSeen < a.published_at)) :=
        List.mem_filter.mpr ⟨ha, by simpa using hnew⟩
      rw [hlast]
      exact mem_le_foldl_max hmem _
    · rw [hlast]
      exact le_trans (not_lt.mp hnew) (le_foldl_max _ _)
  refine ⟨?_, ?_, fun feed stories h => mergeFeed_all_present h⟩
  · simp [refresh, hfetch, hproc, mergeFeed]
  · simp [refresh, hfetch, hproc, mergeFeed]

/-- Witness for C5 at concrete inputs. -/
theorem refresh_idempotent_witness :
    (refresh (fun l => l.map (fun a => ⟨a.id, a.title, a.content, a.url, a.source,
        a.published_at⟩)) wArticles
      (refresh (fun l => l.map (fun a => ⟨a.id, a.title, a.content, a.url, a.source,
        a.published_at⟩)) wArticles ⟨[], -1⟩).2).1 = 0 ∧
    (refresh (fun l => l.map (fun a => ⟨a.id, a.title, a.content, a.url, a.source,
        a.published_at⟩)) wArticles
      (refresh (fun l => l.map (fun a => ⟨a.id, a.title, a.content, a.url, a.source,
        a.published_at⟩)) wArticles ⟨[], -1⟩).2).2 =
      (refresh (fun l => l.map (fun a => ⟨a.id, a.title, a.content, a.url, a.source,
        a.published_at⟩)) wArticles ⟨[], -1⟩).2 ∧
    (∀ feed stories : List FeedItem,
      (∀ it ∈ stories, ∃ e ∈ feed, e.article_id = it.article_id) →
      mergeFeed feed stories = (feed, 0)) :=
  refresh_idempotent _ wArticles ⟨[], -1⟩ rfl

/-- The merge preserves uniqueness of `article_id` in the feed. -/
theorem mergeFeed_nodup {feed stories : List FeedItem}
    (h : (feed.map FeedItem.article_id).Nodup) :
    ((mergeFeed feed stories).1.map FeedItem.article_id).Nodup := by
  unfold mergeFeed
  suffices key : ∀ (l : List FeedItem) (acc : List FeedItem × Nat),
      (acc.1.map FeedItem.article_id).Nodup →
      ((l.foldl
        (fun acc it =>
          if acc.1.any (fun e => decide (e.article_id = it.article_id)) then acc
          else (acc.1 ++ [it], acc.2 + 1)) acc).1.map FeedItem.article_id).Nodup by
    exact key stories (feed, 0) h
  intro l
  induction l with
  | nil => intro acc hacc; exact hacc
  | cons it l ih =>
      intro acc hacc
      rw [List.foldl_cons]
      by_cases hany : acc.1.any (fun e => decide (e.article_id = it.article_id)) = true
      · rw [if_pos hany]
        exact ih acc hacc
      · rw [if_neg hany]
        apply ih
        simp only [List.map_append, List.map_cons, List.map_nil]
        rw [List.nodup_append]
        refine ⟨hacc, List.nodup_singleton _, ?_⟩
        intro x hx hx'
        have hxid : x = it.article_id := by simpa using hx'
        rcases List.mem_map.mp hx with ⟨e, he, rfl⟩
        exact hany (List.any_eq_true.mpr ⟨e, he, by simpa using hxid⟩)

/-- C6: no two feed items of one user ever share an `article_id` — the
property holds after any sequence of refreshes starting from an empty feed,
and every single refresh preserves it.  (Modelled from the spec, §4.4 and
§8; mirrors the `UNIQUE(user_id, article_id)` constraint of the
`feed_items` table.) -/
theorem feed_article_ids_unique (process : List Article → List FeedItem)
    (batches : List (List Article)) (t₀ : Int) :
    (∀ (b : List Article) (st : UpdState),
      (st.feed.map FeedItem.article_id).Nodup →
      ((refresh process b st).2.feed.map FeedItem.article_id).Nodup) ∧
    ((runRefreshes process batches ⟨[], t₀⟩).feed.map FeedItem.article_id).Nodup := by
  have hstep : ∀ (b : List Article) (st : UpdState),
      (st.feed.map FeedItem.article_id).Nodup →
      ((refresh process b st).2.feed.map FeedItem.article_id).Nodup := by
    intro b st hst
    exact mergeFeed_nodup hst
  refine ⟨hstep, ?_⟩
  suffices key : ∀ (bs : List (List Article)) (st : UpdState),
      (st.feed.map FeedItem.article_id).Nodup →
      ((runRefreshes process bs st).feed.map FeedItem.article_id).Nodup by
    exact key batches ⟨[], t₀⟩ (by simp)
  intro bs
  induction bs with
  | nil => intro st h; exact h
  | cons b bs ih =>
      intro st h
      exact ih _ (hstep b st h)

/-- Witness for C6 at concrete inputs. -/
theorem feed_article_ids_unique_witness :
    (∀ (b : List Article) (st : UpdState),
      (st.feed.map FeedItem.article_id).Nodup →
      ((refresh (fun l => l.map (fun a => ⟨a.id, a.title, a.content, a.url,
          a.source, a.published_at⟩)) b st).2.feed.map FeedItem.article_id).Nodup) ∧
    ((runRefreshes (fun l => l.map (fun a => ⟨a.id, a.title, a.content, a.url,
        a.source, a.published_at⟩)) [wArticles, wArticles]
        ⟨[], -1⟩).feed.map FeedItem.article_id).Nodup :=
  feed_article_ids_unique _ [wArticles, wArticles] (-1)

/-! ## Learning Engine -/

/-- Clamp a rational to `[lo, hi]`. -/
def clampQ (lo hi x : ℚ) : ℚ := max lo (min hi x)

/-- One tracked interaction, following the `user_interactions` schema and
the frontend `InteractionRequest` (view duration, "read more" click, and
the like/save/dislike signals). -/
structure Interaction where
  view_duration_seconds : Nat
  clicked_read_more : Bool
  liked : Bool
  saved : Bool
  disliked : Bool
deriving Repr, DecidableEq, Inhabited

/-- Modelled from the spec: the view-duration bucket of
`UserLearningEngine.calculate_article_engagement` (IMPROVEMENTS_PLAN and
spec §4.5): 0–10s → 0.1, 10–30s → 0.5, ≥30s → 1.0. -/
def durationScore (d : Nat) : ℚ :=
  if d < 10 then 1 / 10 else if d < 30 then 1 / 2 else 1

/-- Modelled from the spec: engagement scoring per interaction (spec §4.5,
IMPROVEMENTS_PLAN): duration bucket plus fixed deltas (+0.3 read-more
click, +0.5 like, +0.4 save, −1.0 dislike), summed and clamped to
`[-1, 1]`; the Python learning engine is absent from the snapshot. -/
def engagementScore (i : Interaction) : ℚ :=
  clampQ (-1) 1 (durationScore i.view_duration_seconds
    + (if i.clicked_read_more then 3 / 10 else 0)
    + (if i.liked then 1 / 2 else 0)
    + (if i.saved then 2 / 5 else 0)
    + (if i.disliked then -1 else 0))

/-- C7: the engagement score is exactly the bucketed view-duration value
(0.1 on [0s,10s), 0.5 on [10s,30s), 1.0 from 30s up) plus the fixed deltas
(+0.3 read-more, +0.5 like, +0.4 save, −1.0 dislike), summed additively and
clamped to `[-1, 1]`.  (Modelled from the spec, §4.5.) -/
theorem engagement_score_formula (i : Interaction) :
    engagementScore i =
      max (-1) (min 1
        ((if i.view_duration_seconds < 10 then (1 : ℚ) / 10
          else if i.view_duration_seconds < 30 then 1 / 2 else 1)
          + (if i.clicked_read_more then 3 / 10 else 0)
          + (if i.liked then 1 / 2 else 0)
          + (if i.saved then 2 / 5 else 0)
          + (if i.disliked then -1 else 0))) ∧
    -1 ≤ engagementScore i ∧ engagementScore i ≤ 1 := by
  refine ⟨rfl, le_max_left _ _, ?_⟩
  exact max_le (by norm_num) (min_le_left _ _)

/-- A stored per-keyword interest weight (`interest_weights` table /
frontend `KeywordWeight`). -/
structure KeywordWeight where
  keyword : String
  weight : ℚ
  engagement_count : Nat
deriving Repr, DecidableEq, Inhabited

/-- The nudge of one stored weight:
`weight ← clamp(weight + learning_rate · engagement_score, 0, 1)`. -/
def updateWeight (lr e w : ℚ) : ℚ := clampQ 0 1 (w + lr * e)

/-- Modelled from the spec: the weight update rule of spec §4.5 applied to
one table row — a keyword matched by the interacted-with story gets its
weight nudged and its `engagement_count` incremented; unmatched keywords
are left exactly unchanged (no decay). -/
def applyKeywordUpdate (lr e : ℚ) (matched : List String) (kw : KeywordWeight) :
    KeywordWeight :=
  if kw.keyword ∈ matched then
    ⟨kw.keyword, updateWeight lr e kw.weight, kw.engagement_count + 1⟩
  else kw

/-- `update_weights` over the whole interest-weight table. -/
def updateWeights (lr e : ℚ) (matched : List String)
    (tbl : List KeywordWeight) : List KeywordWeight :=
  tbl.map (applyKeywordUpdate lr e matched)

theorem updateWeights_getD {lr e : ℚ} {matched : List String}
    {tbl : List KeywordWeight} {i : Nat} (hi : i < tbl.length) :
    (updateWeights lr e matched tbl).getD i default =
      applyKeywordUpdate lr e matched (tbl.getD i default) := by
  have hi' : i < (updateWeights lr e matched tbl).length := by
    simpa [updateWeights] using hi
  rw [List.getD_eq_getElem _ _ hi', List.getD_eq_getElem _ _ hi]
  simp [updateWeights]

/-- C8: one `update_weights` application with positive engagement strictly
increases a matched keyword's stored weight unless it already sits at the
1.0 ceiling; negative engagement (a dislike) strictly decreases it unless
it sits at the 0 floor; unmatched keywords keep exactly their previous row
(no decay); and `engagement_count` is incremented on every matched update.
(Modelled from the spec, §4.5 and §8.) -/
theorem update_weights_monotone (lr e : ℚ) (matched : List String)
    (tbl : List KeywordWeight) (i : Nat) (hi : i < tbl.length) (hlr : 0 < lr) :
    ((tbl.getD i default).keyword ∈ matched → 0 < e →
      ((tbl.getD i default).weight < 1 →
        (tbl.getD i default).weight <
          ((updateWeights lr e matched tbl).getD i default).weight) ∧
      ((tbl.getD i default).weight = 1 →
        ((updateWeights lr e matched tbl).getD i default).weight = 1)) ∧
    ((tbl.getD i default).keyword ∈ matched → e < 0 →
      (0 < (tbl.getD i default).weight →
        ((updateWeights lr e matched tbl).getD i default).weight <
          (tbl.getD i default).weight) ∧
      ((tbl.getD i default).weight = 0 →
        ((updateWeights lr e matched tbl).getD i default).weight = 0)) ∧
    ((tbl.getD i default).keyword ∉ matched →
      (updateWeights lr e matched tbl).getD i default = tbl.getD i default) ∧
    ((tbl.getD i default).keyword ∈ matched →
      ((updateWeights lr e matched tbl).getD i default).engagement_count =
        (tbl.getD i default).engagement_count + 1) := by
  rw [updateWeights_getD hi]
  set kw := tbl.getD i default with hkw
  refine ⟨?_, ?_, ?_, ?_⟩
  · intro hmem he
    have hlre : 0 < lr * e := mul_pos hlr he
    constructor
    · intro hwlt
      simp only [applyKeywordUpdate, if_pos hmem, updateWeight, clampQ]
      have h1 : kw.weight < min 1 (kw.weight + lr * e) := lt_min hwlt (by linarith)
      exact lt_of_lt_of_le h1 (le_max_right _ _)
    · intro hweq
      simp only [applyKeywordUpdate, if_pos hmem, updateWeight, clampQ, hweq]
      rw [min_eq_left (by linarith)]
      norm_num
  · intro hmem he
    have hlre : lr * e < 0 := mul_neg_of_pos_of_neg hlr he
    constructor
    · intro hwpos
      simp only [applyKeywordUpdate, if_pos hmem, updateWeight, clampQ]
      exact max_lt hwpos (lt_of_le_of_lt (min_le_right _ _) (by linarith))
    · intro hweq
      simp only [applyKeywordUpdate, if_pos hmem, updateWeight, clampQ, hweq]
      rw [min_eq_right (by linarith), max_eq_left (by linarith)]
  · intro hmem
    simp [applyKeywordUpdate, hmem]
  · intro hmem
    simp [applyKeywordUpdate, hmem]

/-- Witness for C8 at concrete inputs. -/
theorem update_weights_monotone_witness :
    ((([⟨"AI", 1 / 2, 0⟩] : List KeywordWeight).getD 0 default).keyword ∈ ["AI"] →
      (0 : ℚ) < 1 →
      ((([⟨"AI", 1 / 2, 0⟩] : List KeywordWeight).getD 0 default).weight < 1 →
        (([⟨"AI", 1 / 2, 0⟩] : List KeywordWeight).getD 0 default).weight <
          ((updateWeights (1 / 10) 1 ["AI"] [⟨"AI", 1 / 2, 0⟩]).getD 0
            default).weight) ∧
      ((([⟨"AI", 1 / 2, 0⟩] : List KeywordWeight).getD 0 default).weight = 1 →
        ((updateWeights (1 / 10) 1 ["AI"] [⟨"AI", 1 / 2, 0⟩]).getD 0
          default).weight = 1)) ∧
    ((([⟨"AI", 1 / 2, 0⟩] : List KeywordWeight).getD 0 default).keyword ∈ ["AI"] →
      (1 : ℚ) < 0 →
      (0 < (([⟨"AI", 1 / 2, 0⟩] : List KeywordWeight).getD 0 default).weight →
        ((updateWeights (1 / 10) 1 ["AI"] [⟨"AI", 1 / 2, 0⟩]).getD 0
          default).weight <
          (([⟨"AI", 1 / 2, 0⟩] : List KeywordWeight).getD 0 default).weight) ∧
      ((([⟨"AI", 1 / 2, 0⟩] : List KeywordWeight).getD 0 default).weight = 0 →
        ((updateWeights (1 / 10) 1 ["AI"] [⟨"AI", 1 / 2, 0⟩]).getD 0
          default).weight = 0)) ∧
    ((([⟨"AI", 1 / 2, 0⟩] : List KeywordWeight).getD 0 default).keyword ∉ ["AI"] →
      (updateWeights (1 / 10) 1 ["AI"] [⟨"AI", 1 / 2, 0⟩]).getD 0 default =
        ([⟨"AI", 1 / 2, 0⟩] : List KeywordWeight).getD 0 default) ∧
    ((([⟨"AI", 1 / 2, 0⟩] : List KeywordWeight).getD 0 default).keyword ∈ ["AI"] →
      ((updateWeights (1 / 10) 1 ["AI"] [⟨"AI", 1 / 2, 0⟩]).getD 0
        default).engagement_count =
        (([⟨"AI", 1 / 2, 0⟩] : List KeywordWeight).getD 0
          default).engagement_count + 1) :=
  update_weights_monotone (1 / 10) 1 ["AI"] [⟨"AI", 1 / 2, 0⟩] 0 (by decide)
    (by norm_num)

/-! ## Hotness-score validation -/

/-- A validated hotness score: six numeric fields plus free-text reasoning
(frontend `HotnessScore`; models.py declares each numeric field with
`Field(ge=0.0, le=1.0)`). -/
structure HotnessScore where
  overall : ℚ
  unexpectedness : ℚ
  materiality : ℚ
  velocity : ℚ
  breadth : ℚ
  credibility : ℚ
  reasoning : String
deriving Repr, DecidableEq, Inhabited

/-- A raw judgment-service response before validation: every field may be
missing (the judgment output is an untrusted boundary, spec §9). -/
structure RawJudgment where
  overall : Option ℚ
  unexpectedness : Option ℚ
  materiality : Option ℚ
  velocity : Option ℚ
  breadth : Option ℚ
  credibility : Option ℚ
  reasoning : Option String
deriving Repr, DecidableEq, Inhabited

/-- Membership of the unit interval. -/
def inUnit (x : ℚ) : Bool := decide (0 ≤ x) && decide (x ≤ 1)

/-- A response is well-formed when all six numeric fields are present and
within `[0, 1]` and the reasoning text is present. -/
def WellFormed (r : RawJudgment) : Prop :=
  (∃ x, r.overall = some x ∧ 0 ≤ x ∧ x ≤ 1) ∧
  (∃ x, r.unexpectedness = some x ∧ 0 ≤ x ∧ x ≤ 1) ∧
  (∃ x, r.materiality = some x ∧ 0 ≤ x ∧ x ≤ 1) ∧
  (∃ x, r.velocity = some x ∧ 0 ≤ x ∧ x ≤ 1) ∧
  (∃ x, r.breadth = some x ∧ 0 ≤ x ∧ x ≤ 1) ∧
  (∃ x, r.credibility = some x ∧ 0 ≤ x ∧ x ≤ 1) ∧
  (∃ s, r.reasoning = some s)

/-- Modelled from the spec: schema/range validation of a judgment response
(spec §4.2, §9; models.py with its `Field(ge=0.0, le=1.0)` bounds is absent
from the snapshot).  A response missing a field or carrying an
out-of-range value is rejected (`none`), i.e. converted into a
`ScoringError`; otherwise the validated `HotnessScore` is produced. -/
def validateHotness (r : RawJudgment) : Option HotnessScore :=
  r.overall.bind fun o =>
  r.unexpectedness.bind fun u =>
  r.materiality.bind fun m =>
  r.velocity.bind fun v =>
  r.breadth.bind fun b =>
  r.credibility.bind fun c =>
  r.reasoning.bind fun rs =>
  if inUnit o && inUnit u && inUnit m && inUnit v && inUnit b && inUnit c then
    some ⟨o, u, m, v, b, c, rs⟩
  else none

/-- An admitted score pins down the response: every field was present and
every numeric field is within bounds. -/
theorem validateHotness_eq_some {r : RawJudgment} {h : HotnessScore}
    (hval : validateHotness r = some h) :
    r.overall = some h.overall ∧ r.unexpectedness = some h.unexpectedness ∧
    r.materiality = some h.materiality ∧ r.velocity = some h.velocity ∧
    r.breadth = some h.breadth ∧ r.credibility = some h.credibility ∧
    r.reasoning = some h.reasoning ∧
    (0 ≤ h.overall ∧ h.overall ≤ 1) ∧
    (0 ≤ h.unexpectedness ∧ h.unexpectedness ≤ 1) ∧
    (0 ≤ h.materiality ∧ h.materiality ≤ 1) ∧
    (0 ≤ h.velocity ∧ h.velocity ≤ 1) ∧
    (0 ≤ h.breadth ∧ h.breadth ≤ 1) ∧
    (0 ≤ h.credibility ∧ h.credibility ≤ 1) := by
  simp only [validateHotness, Option.bind_eq_some] at hval
  rcases hval with ⟨o, ho, u, hu, m, hm, v, hv, b, hb, c, hc, rs, hrs, hif⟩
  by_cases hcond :
      (inUnit o && inUnit u && inUnit m && inUnit v && inUnit b && inUnit c) = true
  · rw [if_pos hcond] at hif
    simp only [inUnit, Bool.and_eq_true, decide_eq_true_eq] at hcond
    obtain ⟨⟨⟨⟨⟨h₁, h₂⟩, h₃⟩, h₄⟩, h₅⟩, h₆⟩ := hcond
    cases hif
    exact ⟨ho, hu, hm, hv, hb, hc, hrs, h₁, h₂, h₃, h₄, h₅, h₆⟩
  · rw [if_neg hcond] at hif
    exact absurd hif (by simp)

theorem wellFormed_of_validate {r : RawJudgment} {h : HotnessScore}
    (hval : validateHotness r = some h) : WellFormed r := by
  obtain ⟨ho, hu, hm, hv, hb, hc, hrs, b₁, b₂, b₃, b₄, b₅, b₆⟩ :=
    validateHotness_eq_some hval
  exact ⟨⟨_, ho, b₁⟩, ⟨_, hu, b₂⟩, ⟨_, hm, b₃⟩, ⟨_, hv, b₄⟩, ⟨_, hb, b₅⟩,
    ⟨_, hc, b₆⟩, ⟨_, hrs⟩⟩

/-- C9: every admitted `HotnessScore` has all six numeric fields present in
the response and each within `[0, 1]`; a response violating field presence
or range is never admitted; and `overall` is not constrained to be any
fixed function of the five sub-scores (two admitted scores agree on all
sub-scores yet differ in `overall`).  (Modelled from the spec, §3 and §9;
the Pydantic model is absent from the snapshot, its documented bounds
`Field(ge=0.0, le=1.0)` are embedded above.) -/
theorem validate_hotness_bounds :
    (∀ (r : RawJudgment) (h : HotnessScore), validateHotness r = some h →
      r.overall = some h.overall ∧ r.unexpectedness = some h.unexpectedness ∧
      r.materiality = some h.materiality ∧ r.velocity = some h.velocity ∧
      r.breadth = some h.breadth ∧ r.credibility = some h.credibility ∧
      (0 ≤ h.overall ∧ h.overall ≤ 1) ∧
      (0 ≤ h.unexpectedness ∧ h.unexpectedness ≤ 1) ∧
      (0 ≤ h.materiality ∧ h.materiality ≤ 1) ∧
      (0 ≤ h.velocity ∧ h.velocity ≤ 1) ∧
      (0 ≤ h.breadth ∧ h.breadth ≤ 1) ∧
      (0 ≤ h.credibility ∧ h.credibility ≤ 1)) ∧
    (∀ r : RawJudgment, ¬ WellFormed r → validateHotness r = none) ∧
    (∃ r₁ r₂ : RawJudgment, ∃ h₁ h₂ : HotnessScore,
      validateHotness r₁ = some h₁ ∧ validateHotness r₂ = some h₂ ∧
      h₁.unexpectedness = h₂.unexpectedness ∧ h₁.materiality = h₂.materiality ∧
      h₁.velocity = h₂.velocity ∧ h₁.breadth = h₂.breadth ∧
      h₁.credibility = h₂.credibility ∧ h₁.overall ≠ h₂.overall) := by
  refine ⟨?_, ?_, ?_⟩
  · intro r h hval
    obtain ⟨ho, hu, hm, hv, hb, hc, _, hbs⟩ := validateHotness_eq_some hval
    exact ⟨ho, hu, hm, hv, hb, hc, hbs⟩
  · intro r hwf
    by_contra hne
    rcases Option.ne_none_iff_exists'.mp hne with ⟨h, hval⟩
    exact hwf (wellFormed_of_validate hval)
  · refine ⟨⟨some (1 / 2), some (1 / 2), some (1 / 2), some (1 / 2), some (1 / 2),
      some (1 / 2), some "r"⟩,
      ⟨some (9 / 10), some (1 / 2), some (1 / 2), some (1 / 2), some (1 / 2),
        some (1 / 2), some "r"⟩,
      ⟨1 / 2, 1 / 2, 1 / 2, 1 / 2, 1 / 2, 1 / 2, "r"⟩,
      ⟨9 / 10, 1 / 2, 1 / 2, 1 / 2, 1 / 2, 1 / 2, "r"⟩, ?_, ?_, rfl, rfl, rfl,
      rfl, rfl, by norm_num⟩ <;> norm_num [validateHotness, inUnit]

/-- Witness for C9 at a concrete rejected response (missing `credibility`)
and a concrete out-of-range response. -/
theorem validate_hotness_bounds_witness :
    validateHotness ⟨some (1 / 2), some (1 / 2), some (1 / 2), some (1 / 2),
      some (1 / 2), none, some "r"⟩ = none ∧
    validateHotness ⟨some 2, some (1 / 2), some (1 / 2), some (1 / 2),
      some (1 / 2), some (1 / 2), some "r"⟩ = none := by
  constructor
  · exact validate_hotness_bounds.2.1 _ (by
      intro h
      rcases h.2.2.2.2.2.1 with ⟨x, hx, _⟩
      simp at hx)
  · exact validate_hotness_bounds.2.1 _ (by
      intro h
      rcases h.1 with ⟨x, hx, _, hx1⟩
      simp at hx
      subst hx
      norm_num at hx1)

/-! ## Cascade deletion of a user (SQL schema) -/

/-- A row of `user_preferences_db` (migration 001, lines 28–43): only the
keyed column matters for the cascade. -/
structure PrefsRow where
  user_id : String
  keywords : List String
deriving Repr, DecidableEq, Inhabited

/-- A row of `user_interactions` (migration 001, lines 87–109). -/
structure InteractionRow where
  user_id : String
  article_id : String
deriving Repr, DecidableEq, Inhabited

/-- A row of `reading_sessions` (migration 001, lines 120–131). -/
structure SessionRow where
  user_id : String
  total_time_seconds : Nat
deriving Repr, DecidableEq, Inhabited

/-- A row of `feed_cache` (migration 001, lines 140–148). -/
structure CacheRow where
  user_id : String
  expires_at : Int
deriving Repr, DecidableEq, Inhabited

/-- A row of `interest_weights` (migration 001, lines 157–168). -/
structure WeightRow where
  user_id : String
  keyword : String
  weight : ℚ
deriving Repr, DecidableEq, Inhabited

/-- A feed item together with its owner, as a row of `feed_items`
(migration 001, lines 51–74). -/
structure FeedRow where
  user_id : String
  item : FeedItem
deriving Repr, DecidableEq, Inhabited

/-- The database state over the tables of migration 001. -/
structure DBState where
  user_profiles : List String
  user_preferences_db : List PrefsRow
  feed_items : List FeedRow
  user_interactions : List InteractionRow
  reading_sessions : List SessionRow
  feed_cache : List CacheRow
  interest_weights : List WeightRow
deriving Repr, DecidableEq, Inhabited

/-- Deleting a row of `user_profiles`: every dependent table declares
`FOREIGN KEY (user_id) REFERENCES user_profiles(user_id) ON DELETE CASCADE`
(migration 001, lines 42, 72, 107, 130, 147, 166), so the delete removes,
in the same operation, every row of those tables carrying the deleted
`user_id`. -/
def deleteUser (db : DBState) (u : String) : DBState where
  user_profiles := db.user_profiles.filter (fun p => decide (p ≠ u))
  user_preferences_db := db.user_preferences_db.filter (fun r => decide (r.user_id ≠ u))
  feed_items := db.feed_items.filter (fun r => decide (r.user_id ≠ u))
  user_interactions := db.user_interactions.filter (fun r => decide (r.user_id ≠ u))
  reading_sessions := db.reading_sessions.filter (fun r => decide (r.user_id ≠ u))
  feed_cache := db.feed_cache.filter (fun r => decide (r.user_id ≠ u))
  interest_weights := db.interest_weights.filter (fun r => decide (r.user_id ≠ u))

/-- Referential integrity: every per-user row references an existing
profile. -/
def Consistent (db : DBState) : Prop :=
  (∀ r ∈ db.user_preferences_db, r.user_id ∈ db.user_profiles) ∧
  (∀ r ∈ db.feed_items, r.user_id ∈ db.user_profiles) ∧
  (∀ r ∈ db.user_interactions, r.user_id ∈ db.user_profiles) ∧
  (∀ r ∈ db.reading_sessions, r.user_id ∈ db.user_profiles) ∧
  (∀ r ∈ db.feed_cache, r.user_id ∈ db.user_profiles) ∧
  (∀ r ∈ db.interest_weights, r.user_id ∈ db.user_profiles)

/-- C10: deleting a user's profile removes, in the same operation, every
dependent per-user row (preferences, feed items, interactions, reading
sessions, feed-cache entries, interest weights), and referential integrity
is preserved — after any profile deletion no orphaned per-user row remains
in any table. -/
theorem delete_user_cascades (db : DBState) (u : String) :
    (u ∉ (deleteUser db u).user_profiles) ∧
    (∀ r ∈ (deleteUser db u).user_preferences_db, r.user_id ≠ u) ∧
    (∀ r ∈ (deleteUser db u).feed_items, r.user_id ≠ u) ∧
    (∀ r ∈ (deleteUser db u).user_interactions, r.user_id ≠ u) ∧
    (∀ r ∈ (deleteUser db u).reading_sessions, r.user_id ≠ u) ∧
    (∀ r ∈ (deleteUser db u).feed_cache, r.user_id ≠ u) ∧
    (∀ r ∈ (deleteUser db u).interest_weights, r.user_id ≠ u) ∧
    (Consistent db → Consistent (deleteUser db u)) := by
  refine ⟨?_, ?_, ?_, ?_, ?_, ?_, ?_, ?_⟩
  · intro h
    rcases List.mem_filter.mp h with ⟨_, hb⟩
    simp at hb
  · intro r h
    exact of_decide_eq_true (List.mem_filter.mp h).2
  · intro r h
    exact of_decide_eq_true (List.mem_filter.mp h).2
  · intro r h
    exact of_decide_eq_true (List.mem_filter.mp h).2
  · intro r h
    exact of_decide_eq_true (List.mem_filter.mp h).2
  · intro r h
    exact of_decide_eq_true (List.mem_filter.mp h).2
  · intro r h
    exact of_decide_eq_true (List.mem_filter.mp h).2
  · intro hc
    have keep : ∀ {v : String}, v ∈ db.user_profiles → v ≠ u →
        v ∈ (deleteUser db u).user_profiles := by
      intro v hv hne
      exact List.mem_filter.mpr ⟨hv, by simpa using hne⟩
    refine ⟨?_, ?_, ?_, ?_, ?_, ?_⟩
    · intro r h
      rcases List.mem_filter.mp h with ⟨hmem, hne⟩
      exact keep (hc.1 r hmem) (of_decide_eq_true hne)
    · intro r h
      rcases List.mem_filter.mp h with ⟨hmem, hne⟩
      exact keep (hc.2.1 r hmem) (of_decide_eq_true hne)
    · intro r h
      rcases List.mem_filter.mp h with ⟨hmem, hne⟩
      exact keep (hc.2.2.1 r hmem) (of_decide_eq_true hne)
    · intro r h
      rcases List.mem_filter.mp h with ⟨hmem, hne⟩
      exact keep (hc.2.2.2.1 r hmem) (of_decide_eq_true hne)
    · intro r h
      rcases List.mem_filter.mp h with ⟨hmem, hne⟩
      exact keep (hc.2.2.2.2.1 r hmem) (of_decide_eq_true hne)
    · intro r h
      rcases List.mem_filter.mp h with ⟨hmem, hne⟩
      exact keep (hc.2.2.2.2.2 r hmem) (of_decide_eq_true hne)

/-- Witness for C10 on a concrete two-user database. -/
theorem delete_user_cascades_witness :
    (("u1" : String) ∉ (deleteUser ⟨["u1", "u2"], [⟨"u1", ["AI"]⟩],
        [⟨"u1", ⟨"a1", "t", "s", "u", "src", 0⟩⟩], [⟨"u1", "a1"⟩], [⟨"u2", 3⟩],
        [⟨"u1", 5⟩], [⟨"u1", "AI", 1 / 2⟩]⟩ "u1").user_profiles) ∧
    (∀ r ∈ (deleteUser ⟨["u1", "u2"], [⟨"u1", ["AI"]⟩],
        [⟨"u1", ⟨"a1", "t", "s", "u", "src", 0⟩⟩], [⟨"u1", "a1"⟩], [⟨"u2", 3⟩],
        [⟨"u1", 5⟩], [⟨"u1", "AI", 1 / 2⟩]⟩ "u1").user_preferences_db,
      r.user_id ≠ "u1") ∧
    (∀ r ∈ (deleteUser ⟨["u1", "u2"], [⟨"u1", ["AI"]⟩],
        [⟨"u1", ⟨"a1", "t", "s", "u", "src", 0⟩⟩], [⟨"u1", "a1"⟩], [⟨"u2", 3⟩],
        [⟨"u1", 5⟩], [⟨"u1", "AI", 1 / 2⟩]⟩ "u1").feed_items, r.user_id ≠ "u1") ∧
    (∀ r ∈ (deleteUser ⟨["u1", "u2"], [⟨"u1", ["AI"]⟩],
        [⟨"u1", ⟨"a1", "t", "s", "u", "src", 0⟩⟩], [⟨"u1", "a1"⟩], [⟨"u2", 3⟩],
        [⟨"u1", 5⟩], [⟨"u1", "AI", 1 / 2⟩]⟩ "u1").user_interactions,
      r.user_id ≠ "u1") ∧
    (∀ r ∈ (deleteUser ⟨["u1", "u2"], [⟨"u1", ["AI"]⟩],
        [⟨"u1", ⟨"a1", "t", "s", "u", "src", 0⟩⟩], [⟨"u1", "a1"⟩], [⟨"u2", 3⟩],
        [⟨"u1", 5⟩], [⟨"u1", "AI", 1 / 2⟩]⟩ "u1").reading_sessions,
      r.user_id ≠ "u1") ∧
    (∀ r ∈ (deleteUser ⟨["u1", "u2"], [⟨"u1", ["AI"]⟩],
        [⟨"u1", ⟨"a1", "t", "s", "u", "src", 0⟩⟩], [⟨"u1", "a1"⟩], [⟨"u2", 3⟩],
        [⟨"u1", 5⟩], [⟨"u1", "AI", 1 / 2⟩]⟩ "u1").feed_cache, r.user_id ≠ "u1") ∧
    (∀ r ∈ (deleteUser ⟨["u1", "u2"], [⟨"u1", ["AI"]⟩],
        [⟨"u1", ⟨"a1", "t", "s", "u", "src", 0⟩⟩], [⟨"u1", "a1"⟩], [⟨"u2", 3⟩],
        [⟨"u1", 5⟩], [⟨"u1", "AI", 1 / 2⟩]⟩ "u1").interest_weights,
      r.user_id ≠ "u1") ∧
    (Consistent ⟨["u1", "u2"], [⟨"u1", ["AI"]⟩],
        [⟨"u1", ⟨"a1", "t", "s", "u", "src", 0⟩⟩], [⟨"u1", "a1"⟩], [⟨"u2", 3⟩],
        [⟨"u1", 5⟩], [⟨"u1", "AI", 1 / 2⟩]⟩ →
      Consistent (deleteUser ⟨["u1", "u2"], [⟨"u1", ["AI"]⟩],
        [⟨"u1", ⟨"a1", "t", "s", "u", "src", 0⟩⟩], [⟨"u1", "a1"⟩], [⟨"u2", 3⟩],
        [⟨"u1", 5⟩], [⟨"u1", "AI", 1 / 2⟩]⟩ "u1")) :=
  delete_user_cascades ⟨["u1", "u2"], [⟨"u1", ["AI"]⟩],
    [⟨"u1", ⟨"a1", "t", "s", "u", "src", 0⟩⟩], [⟨"u1", "a1"⟩], [⟨"u2", 3⟩],
    [⟨"u1", 5⟩], [⟨"u1", "AI", 1 / 2⟩]⟩ "u1"

end Radar
